import Mathlib

/-!
Verification of persistent-keystore-rs: a shallow embedding of the data model,
table/database operations, client operations, maintenance-worker event order,
and the persistence codec, with theorems settling the specification claims.

Machine integers are modelled as `Int`/`Nat` (the claims under study do not
depend on overflow), `SystemTime` as a `Nat` count of nanoseconds since the
epoch, `Duration` as a `Nat`, and `HashMap` as an association list with
replace-on-insert semantics; the `HashMap` uniqueness invariant appears as an
explicit hypothesis where a claim needs it.  Fallible operations return
`Except DatabaseError`; mutation is explicit state passing.
-/

namespace PKStore

/-- `Field` from structs.rs: the tagged union of value variants. -/
inductive Field where
  | string (s : String)
  | i64 (n : Int)
  | i32 (n : Int)
  | u64 (n : Nat)
  | u32 (n : Nat)
  | date (t : Nat)
  | notImplemented
deriving DecidableEq, Repr

/-- `FieldType` from structs.rs: the type tag of a `Field`. -/
inductive FieldType where
  | string
  | i64
  | i32
  | u64
  | u32
  | date
  | none
deriving DecidableEq, Repr

/-- `Field::get_type` from structs.rs. -/
def Field.get_type : Field → FieldType
  | .string _ => .string
  | .i32 _ => .i32
  | .i64 _ => .i64
  | .u64 _ => .u64
  | .u32 _ => .u32
  | .date _ => .date
  | .notImplemented => .none

/-- `FieldRequirement` from structs.rs. -/
inductive FieldRequirement where
  | required (t : FieldType)
  | optional (t : FieldType)
deriving DecidableEq, Repr

/-- `FieldRequirement::unwrap` from structs.rs. -/
def FieldRequirement.unwrap : FieldRequirement → FieldType
  | .required f => f
  | .optional f => f

/-- `DatabaseError` from errors.rs (payloads of purely external error types
are dropped; they carry no information the claims need). -/
inductive DatabaseError where
  | TableExists (t : String)
  | TableDoesNotExist (t : String)
  | TableMissingPrimaryKey
  | TableNameNotSet
  | TableMustContainFields
  | EntryMustContainFields
  | EntryExists
  | EntryDoesNotExists
  | DatabaseIoError
  | DatabaseExistsError
  | DatabaseDoesNotExist (d : String)
  | UnsupportedField (f : String)
  | MissingRequiredField (f : String)
  | MismatchedFieldType
  | UnsupportedFieldType
  | DatabaseSerializationError
  | UnableToGetLock
  | InvalidPrimaryKey
  | DatabaseDecompressionError
  | DatabaseCompressionError
deriving DecidableEq, Repr

/-- Association-list model of `HashMap::get` / `get_key_value`. -/
def alookup {K V : Type} [DecidableEq K] : List (K × V) → K → Option V
  | [], _ => Option.none
  | (k', v') :: rest, k => if k' = k then some v' else alookup rest k

/-- Association-list model of `HashMap::insert`: replace the binding if the
key is present, append it otherwise. -/
def alinsert {K V : Type} [DecidableEq K] : List (K × V) → K → V → List (K × V)
  | [], k, v => [(k, v)]
  | (k', v') :: rest, k, v =>
      if k' = k then (k, v) :: rest else (k', v') :: alinsert rest k v

/-- Association-list model of `HashMap::remove_entry` (a `HashMap` holds at
most one binding per key, so removing every binding of `k` agrees with it). -/
def aremove {K V : Type} [DecidableEq K] : List (K × V) → K → List (K × V)
  | [], _ => []
  | p :: rest, k => if p.1 = k then aremove rest k else p :: aremove rest k

/-- `Entry` from structs.rs. -/
structure Entry where
  primary_field : Field
  fields : List (String × Field)
  last_timestamp : Option Nat
deriving DecidableEq, Repr

/-- `Table` from structs.rs. -/
structure Table where
  name : String
  primary_field : FieldType
  fields : List (String × FieldRequirement)
  entries : List (Field × Entry)
  expire_after : Option Nat
deriving DecidableEq, Repr

/-- `Database` from structs.rs. -/
structure Database where
  sync_interval : Option Nat
  tables : List (String × Table)
deriving DecidableEq, Repr

/-- `Database::default` from structs.rs. -/
def Database.default : Database := ⟨Option.none, []⟩

/-- `Database::get_table` from structs.rs (read access; callers that mutate
write the table back explicitly). -/
def Database.get_table (db : Database) (table : String) : Except DatabaseError Table :=
  match alookup db.tables table with
  | some t => .ok t
  | Option.none => .error (DatabaseError.TableDoesNotExist table)

/-- `Database::create_table` from structs.rs: registers under `table.name`,
unconditionally, and always succeeds. -/
def Database.create_table (db : Database) (table : Table) : Except DatabaseError Database :=
  .ok { db with tables := alinsert db.tables table.name table }

/-- `Database::drop_table` from structs.rs. -/
def Database.drop_table (db : Database) (table : String) : Except DatabaseError Database :=
  match alookup db.tables table with
  | some _ => .ok { db with tables := aremove db.tables table }
  | Option.none => .error (DatabaseError.TableDoesNotExist table)

/-- `Database::list_tables` from structs.rs. -/
def Database.list_tables (db : Database) : List String :=
  db.tables.map Prod.fst

/-- `Table::get` from structs.rs. -/
def Table.get (t : Table) (key : Field) : Except DatabaseError Entry :=
  match alookup t.entries key with
  | some v => .ok v
  | Option.none => .error DatabaseError.EntryDoesNotExists

/-- The loop of `Table::validate_field_types` over the entry's fields:
a field declared in the schema must carry the declared type; undeclared
fields are skipped here. -/
def Table.validate_field_types_loop (t : Table) : List (String × Field) → Except DatabaseError Unit
  | [] => .ok ()
  | (k, v) :: rest =>
      match alookup t.fields k with
      | some req =>
          if req.unwrap ≠ v.get_type then .error DatabaseError.MismatchedFieldType
          else t.validate_field_types_loop rest
      | Option.none => t.validate_field_types_loop rest

/-- `Table::validate_field_types` from structs.rs: the primary-key variant is
checked first, then each present declared field's variant. -/
def Table.validate_field_types (t : Table) (entry : Entry) : Except DatabaseError Unit :=
  if t.primary_field ≠ entry.primary_field.get_type then .error DatabaseError.MismatchedFieldType
  else t.validate_field_types_loop entry.fields

/-- First loop of `Table::validate_required_fields`: walk the entry's fields,
crossing each off the list of schema field names; a field name not declared in
the schema is `UnsupportedField`. -/
def Table.validate_required_loop (t : Table) :
    List (String × Field) → List String → Except DatabaseError (List String)
  | [], remaining => .ok remaining
  | (k, _) :: rest, remaining =>
      if (alookup t.fields k).isSome then
        match remaining.indexOf? k with
        | some i => t.validate_required_loop rest (remaining.eraseIdx i)
        | Option.none => .error (DatabaseError.UnsupportedField k)
      else .error (DatabaseError.UnsupportedField k)

/-- Second loop of `Table::validate_required_fields`: every schema field not
crossed off must be optional. -/
def Table.required_remaining_loop (t : Table) : List String → Except DatabaseError Unit
  | [] => .ok ()
  | f :: rest =>
      match alookup t.fields f with
      | some (FieldRequirement.required _) => .error (DatabaseError.MissingRequiredField f)
      | some (FieldRequirement.optional _) => t.required_remaining_loop rest
      | Option.none => t.required_remaining_loop rest

/-- `Table::validate_required_fields` from structs.rs. -/
def Table.validate_required_fields (t : Table) (entry : Entry) : Except DatabaseError Unit := do
  let remaining ← t.validate_required_loop entry.fields (t.fields.map Prod.fst)
  t.required_remaining_loop remaining

/-- `Table::insert` from structs.rs, with `SystemTime::now()` passed in as
`now`: validate, stamp `last_timestamp`, fail with `EntryExists` if the
primary key is stored, otherwise store. -/
def Table.insert (t : Table) (entry : Entry) (now : Nat) : Except DatabaseError Table := do
  t.validate_field_types entry
  t.validate_required_fields entry
  let entry := { entry with last_timestamp := some now }
  match t.get entry.primary_field with
  | .ok _ => .error DatabaseError.EntryExists
  | .error _ => .ok { t with entries := alinsert t.entries entry.primary_field entry }

/-- `Table::update` from structs.rs: validate, stamp, store unconditionally. -/
def Table.update (t : Table) (entry : Entry) (now : Nat) : Except DatabaseError Table := do
  t.validate_field_types entry
  t.validate_required_fields entry
  let entry := { entry with last_timestamp := some now }
  .ok { t with entries := alinsert t.entries entry.primary_field entry }

/-- `Table::insert_or_update` from structs.rs: defined as `update`. -/
def Table.insert_or_update (t : Table) (entry : Entry) (now : Nat) : Except DatabaseError Table :=
  t.update entry now

/-- `Table::delete` from structs.rs. -/
def Table.delete (t : Table) (primary_field : Field) : Except DatabaseError Table :=
  match alookup t.entries primary_field with
  | some _ => .ok { t with entries := aremove t.entries primary_field }
  | Option.none => .error DatabaseError.EntryDoesNotExists

/-- `Table::scan` from structs.rs (it cannot fail; the `Result` wrapper is
dropped and readded by callers where needed). -/
def Table.scan (t : Table) : List Entry :=
  t.entries.map Prod.snd

/-!
Client operations, lib.rs.  The lock acquisition around every operation is
serialization glue: under the lock each operation is a pure function of the
`Database` value, which is what is embedded here.  The `UnableToGetLock`
branches are unreachable in the pure model and are dropped.
-/

/-- `Client::create_table` from lib.rs: pre-check through
`Database::get_table`, reject with `TableExists`, otherwise delegate to the
registry operation. -/
def Client.create_table (db : Database) (table : Table) : Except DatabaseError Database :=
  match db.get_table table.name with
  | .ok _ => .error (DatabaseError.TableExists table.name)
  | .error _ => db.create_table table

/-- The criteria check shared by the loops of `Client::query` and
`Client::delete_many` in lib.rs: a record passes iff for every `(k, v)` of
the criteria its `fields` map holds `k` with value exactly `v`. -/
def meetsCriteria (e : Entry) (criteria : List (String × Field)) : Bool :=
  criteria.all fun p =>
    match alookup e.fields p.1 with
    | some value => decide (p.2 = value)
    | Option.none => false

/-- `Client::query` from lib.rs: scan the table and keep the records meeting
every criterium. -/
def Client.query (db : Database) (table : String) (criteria : List (String × Field)) :
    Except DatabaseError (List Entry) :=
  match db.get_table table with
  | .ok t => .ok ((t.scan).filter (fun i => meetsCriteria i criteria))
  | .error _ => .error (DatabaseError.TableDoesNotExist table)

/-- The deletion loop of `Client::delete_many` in lib.rs: walk the scanned
items, delete each one meeting the criteria, and count the deletions. -/
def deleteManyLoop (criteria : List (String × Field)) :
    Table → List Entry → Except DatabaseError (Table × Nat)
  | t, [] => .ok (t, 0)
  | t, i :: rest =>
      if meetsCriteria i criteria then do
        let t' ← t.delete i.primary_field
        let (t'', n) ← deleteManyLoop criteria t' rest
        .ok (t'', n + 1)
      else deleteManyLoop criteria t rest

/-- `Client::delete_many` from lib.rs: scan, delete every record meeting the
criteria, return the count (the mutated table is written back to the
database, mirroring the in-place `&mut` mutation). -/
def Client.delete_many (db : Database) (table : String) (criteria : List (String × Field)) :
    Except DatabaseError (Nat × Database) :=
  match db.get_table table with
  | .ok t => do
      let (t', n) ← deleteManyLoop criteria t t.scan
      .ok (n, { db with tables := alinsert db.tables table t' })
  | .error _ => .error (DatabaseError.TableDoesNotExist table)

/-- The per-item body of `Client::prune` in lib.rs: an item with
`last_timestamp = Some n` is deleted when `current_time.duration_since(n)`
succeeds (`n ≤ now`) and exceeds `expire_after`; items with no timestamp, or
a timestamp in the future, are kept. -/
def pruneItems (now d : Nat) : Table → List Entry → Except DatabaseError Table
  | t, [] => .ok t
  | t, item :: rest =>
      match item.last_timestamp with
      | some n =>
          if n ≤ now then
            if now - n > d then do
              let t' ← t.delete item.primary_field
              pruneItems now d t' rest
            else pruneItems now d t rest
          else pruneItems now d t rest
      | Option.none => pruneItems now d t rest

/-- The per-table body of `Client::prune` in lib.rs: tables without an
`expire_after` are skipped entirely. -/
def pruneTable (now : Nat) (t : Table) : Except DatabaseError Table :=
  match t.expire_after with
  | some d => pruneItems now d t t.scan
  | Option.none => .ok t

/-- `Client::prune` from lib.rs: for every listed table name, fetch the
table and prune it in place, at a single `current_time` snapshot. -/
def pruneTablesLoop (now : Nat) : Database → List String → Except DatabaseError Database
  | db, [] => .ok db
  | db, tn :: rest =>
      match alookup db.tables tn with
      | some t => do
          let t' ← pruneTable now t
          pruneTablesLoop now { db with tables := alinsert db.tables tn t' } rest
      | Option.none => pruneTablesLoop now db rest

/-- `Client::prune` from lib.rs, entry point. -/
def Client.prune (db : Database) (now : Nat) : Except DatabaseError Database :=
  pruneTablesLoop now db db.list_tables

/-!
The maintenance worker (lib.rs, `Client::new` and `Client::open`).  The
spawned loop body is, in source order: `rx.try_recv()` check (break when the
stop signal has arrived), `sleep(d)`, `c.prune()`, `c.save()`.  The loop is
modelled as the sequence of these observable events, parametrised by the
sleep period during which the stop signal is sent.
-/

/-- Observable events of one maintenance-worker loop. -/
inductive WorkerEvent where
  | check
  | sleepEv
  | prune
  | save
deriving DecidableEq, Repr

/-- Event trace of the maintenance worker when the stop signal arrives
during sleep number `s` (0-indexed).  Translated from the loop in
`Client::new`/`Client::open` (the two loops are identical): every iteration
runs `check`, `sleepEv`, `prune`, `save` in that order; the check of
iteration `s + 1` is the first to observe the signal and breaks. -/
def workerEvents : Nat → List WorkerEvent
  | 0 => [.check, .sleepEv, .prune, .save, .check]
  | s + 1 => [.check, .sleepEv, .prune, .save] ++ workerEvents s

/-- The suffix of an event trace after the final `sleepEv` (the last wake).
Claim C9 asserts it contains no `prune` and no `save`. -/
def afterLastSleep (l : List WorkerEvent) : List WorkerEvent :=
  ((l.reverse.takeWhile (fun e => e ≠ WorkerEvent.sleepEv))).reverse

/-- The property claim C9 asserts of every trace: once the signal has been
sent, no prune or save runs after the wake at which it is observed, i.e.
nothing after the final wake is a prune or a save. -/
def noWorkAfterLastWake (s : Nat) : Prop :=
  WorkerEvent.prune ∉ afterLastSleep (workerEvents s) ∧
  WorkerEvent.save ∉ afterLastSleep (workerEvents s)

/-!
Persistence codec.  `Client::save` serializes the `Database` with `bincode`
and compresses with `lz4_flex::compress_prepend_size`; `Client::open`
reverses both steps.  Both crates are external collaborators (spec §1, §4.4),
so the codec below is modelled from the spec: a concrete binary encoding of
the `Database` value, and a length-prefixed self-describing compressed block
(compression proper is modelled as the identity on bytes).  Bytes are `Nat`.
-/

/-- Base-256 little-endian digits of `n`, with fuel for structural
recursion (any fuel `≥ n` is exact; `natBytes` supplies `n` itself). -/
def natBytesF : Nat → Nat → List Nat
  | 0, _ => []
  | fuel + 1, n => if n = 0 then [] else n % 256 :: natBytesF fuel (n / 256)

/-- Base-256 little-endian digits of `n`. -/
def natBytes (n : Nat) : List Nat := natBytesF n n

/-- Value of a little-endian base-256 digit list. -/
def bytesToNat : List Nat → Nat
  | [] => 0
  | b :: rest => b + 256 * bytesToNat rest

/-- Modelled from the spec: variable-length binary encoding of an unsigned
integer (digit count, then base-256 digits). -/
def encNat (n : Nat) : List Nat := (natBytes n).length :: natBytes n

/-- Decoder matching `encNat`. -/
def decNat : List Nat → Option (Nat × List Nat)
  | [] => Option.none
  | len :: rest =>
      if len ≤ rest.length then some (bytesToNat (rest.take len), rest.drop len)
      else Option.none

/-- Modelled from the spec: binary encoding of a signed integer as a sign
byte followed by the magnitude. -/
def encInt (i : Int) : List Nat := (if i < 0 then 1 else 0) :: encNat i.natAbs

/-- Decoder matching `encInt`. -/
def decInt : List Nat → Option (Int × List Nat)
  | [] => Option.none
  | s :: rest =>
      match decNat rest with
      | some (n, r) => some (if s = 1 then -(n : Int) else (n : Int), r)
      | Option.none => Option.none

/-- Modelled from the spec: binary encoding of an optional value (presence
byte, then payload). -/
def encOpt {α : Type} (enc : α → List Nat) : Option α → List Nat
  | Option.none => [0]
  | some a => 1 :: enc a

/-- Decoder matching `encOpt enc`. -/
def decOpt {α : Type} (dec : List Nat → Option (α × List Nat)) :
    List Nat → Option (Option α × List Nat)
  | 0 :: rest => some (Option.none, rest)
  | 1 :: rest =>
      match dec rest with
      | some (a, r) => some (some a, r)
      | Option.none => Option.none
  | _ => Option.none

/-- Decode exactly `count` consecutive values. -/
def decCount {α : Type} (dec : List Nat → Option (α × List Nat)) :
    Nat → List Nat → Option (List α × List Nat)
  | 0, bs => some ([], bs)
  | count + 1, bs =>
      match dec bs with
      | some (a, bs') =>
          match decCount dec count bs' with
          | some (as, bs'') => some (a :: as, bs'')
          | Option.none => Option.none
      | Option.none => Option.none

/-- Modelled from the spec: binary encoding of a sequence (length, then the
elements in order). -/
def encList {α : Type} (enc : α → List Nat) (l : List α) : List Nat :=
  encNat l.length ++ (l.map enc).flatten

/-- Decoder matching `encList enc`. -/
def decList {α : Type} (dec : List Nat → Option (α × List Nat)) (bs : List Nat) :
    Option (List α × List Nat) :=
  match decNat bs with
  | some (n, r) => decCount dec n r
  | Option.none => Option.none

/-- Modelled from the spec: binary encoding of a pair (components in order). -/
def encPair {α β : Type} (encA : α → List Nat) (encB : β → List Nat) (p : α × β) : List Nat :=
  encA p.1 ++ encB p.2

/-- Decoder matching `encPair encA encB`. -/
def decPair {α β : Type} (decA : List Nat → Option (α × List Nat))
    (decB : List Nat → Option (β × List Nat)) (bs : List Nat) : Option ((α × β) × List Nat) :=
  match decA bs with
  | some (a, r) =>
      match decB r with
      | some (b, r') => some ((a, b), r')
      | Option.none => Option.none
  | Option.none => Option.none

/-- Modelled from the spec: binary encoding of one character as its scalar
value. -/
def encChar (c : Char) : List Nat := encNat c.toNat

/-- Decoder matching `encChar`. -/
def decChar (bs : List Nat) : Option (Char × List Nat) :=
  match decNat bs with
  | some (n, r) => some (Char.ofNat n, r)
  | Option.none => Option.none

/-- Modelled from the spec: binary encoding of a string as its sequence of
scalar values. -/
def encString (s : String) : List Nat :=
  encList encChar s.data

/-- Decoder matching `encString`. -/
def decString (bs : List Nat) : Option (String × List Nat) :=
  match decList decChar bs with
  | some (cs, r) => some (String.mk cs, r)
  | Option.none => Option.none

/-- Modelled from the spec: binary encoding of a `FieldType` tag. -/
def encFieldType : FieldType → List Nat
  | .string => [0]
  | .i64 => [1]
  | .i32 => [2]
  | .u64 => [3]
  | .u32 => [4]
  | .date => [5]
  | .none => [6]

/-- Decoder matching `encFieldType`. -/
def decFieldType : List Nat → Option (FieldType × List Nat)
  | 0 :: r => some (.string, r)
  | 1 :: r => some (.i64, r)
  | 2 :: r => some (.i32, r)
  | 3 :: r => some (.u64, r)
  | 4 :: r => some (.u32, r)
  | 5 :: r => some (.date, r)
  | 6 :: r => some (.none, r)
  | _ => Option.none

/-- Modelled from the spec: binary encoding of a `Field` value (tag, then
payload). -/
def encField : Field → List Nat
  | .string s => 0 :: encString s
  | .i64 n => 1 :: encInt n
  | .i32 n => 2 :: encInt n
  | .u64 n => 3 :: encNat n
  | .u32 n => 4 :: encNat n
  | .date t => 5 :: encNat t
  | .notImplemented => [6]

/-- Decoder matching `encField`. -/
def decField : List Nat → Option (Field × List Nat)
  | 0 :: r =>
      match decString r with
      | some (s, r') => some (.string s, r')
      | Option.none => Option.none
  | 1 :: r =>
      match decInt r with
      | some (n, r') => some (.i64 n, r')
      | Option.none => Option.none
  | 2 :: r =>
      match decInt r with
      | some (n, r') => some (.i32 n, r')
      | Option.none => Option.none
  | 3 :: r =>
      match decNat r with
      | some (n, r') => some (.u64 n, r')
      | Option.none => Option.none
  | 4 :: r =>
      match decNat r with
      | some (n, r') => some (.u32 n, r')
      | Option.none => Option.none
  | 5 :: r =>
      match decNat r with
      | some (n, r') => some (.date n, r')
      | Option.none => Option.none
  | 6 :: r => some (.notImplemented, r)
  | _ => Option.none

/-- Modelled from the spec: binary encoding of a `FieldRequirement`. -/
def encReq : FieldRequirement → List Nat
  | .required t => 0 :: encFieldType t
  | .optional t => 1 :: encFieldType t

/-- Decoder matching `encReq`. -/
def decReq : List Nat → Option (FieldRequirement × List Nat)
  | 0 :: r =>
      match decFieldType r with
      | some (t, r') => some (.required t, r')
      | Option.none => Option.none
  | 1 :: r =>
      match decFieldType r with
      | some (t, r') => some (.optional t, r')
      | Option.none => Option.none
  | _ => Option.none

/-- Modelled from the spec: binary encoding of an `Entry`. -/
def encEntry (e : Entry) : List Nat :=
  encField e.primary_field ++
  encList (encPair encString encField) e.fields ++
  encOpt encNat e.last_timestamp

/-- Decoder matching `encEntry`. -/
def decEntry (bs : List Nat) : Option (Entry × List Nat) :=
  match decField bs with
  | some (pf, r) =>
      match decList (decPair decString decField) r with
      | some (fs, r') =>
          match decOpt decNat r' with
          | some (ts, r'') => some (⟨pf, fs, ts⟩, r'')
          | Option.none => Option.none
      | Option.none => Option.none
  | Option.none => Option.none

/-- Modelled from the spec: binary encoding of a `Table`. -/
def encTable (t : Table) : List Nat :=
  encString t.name ++
  encFieldType t.primary_field ++
  encList (encPair encString encReq) t.fields ++
  encList (encPair encField encEntry) t.entries ++
  encOpt encNat t.expire_after

/-- Decoder matching `encTable`. -/
def decTable (bs : List Nat) : Option (Table × List Nat) :=
  match decString bs with
  | some (nm, r0) =>
      match decFieldType r0 with
      | some (pf, r1) =>
          match decList (decPair decString decReq) r1 with
          | some (fs, r2) =>
              match decList (decPair decField decEntry) r2 with
              | some (es, r3) =>
                  match decOpt decNat r3 with
                  | some (ea, r4) => some (⟨nm, pf, fs, es, ea⟩, r4)
                  | Option.none => Option.none
              | Option.none => Option.none
          | Option.none => Option.none
      | Option.none => Option.none
  | Option.none => Option.none

/-- Modelled from the spec: `bincode::serialize` of the `Database` value
(sync interval, then the table registry). -/
def encDatabase (db : Database) : List Nat :=
  encOpt encNat db.sync_interval ++
  encList (encPair encString encTable) db.tables

/-- Modelled from the spec: `bincode::deserialize` of a `Database` value. -/
def decDatabase (bs : List Nat) : Option (Database × List Nat) :=
  match decOpt decNat bs with
  | some (si, r) =>
      match decList (decPair decString decTable) r with
      | some (ts, r') => some (⟨si, ts⟩, r')
      | Option.none => Option.none
  | Option.none => Option.none

/-- Modelled from the spec: `lz4_flex::compress_prepend_size` — the block is
prefixed with the 8-byte little-endian uncompressed length; compression
itself is an external collaborator, modelled as the identity on bytes. -/
def compress_prepend_size (bs : List Nat) : List Nat :=
  [bs.length % 256, bs.length / 256 % 256, bs.length / 65536 % 256,
   bs.length / 16777216 % 256, bs.length / 4294967296 % 256,
   bs.length / 1099511627776 % 256, bs.length / 281474976710656 % 256,
   bs.length / 72057594037927936 % 256] ++ bs

/-- Modelled from the spec: `lz4_flex::decompress_size_prepended` — read the
8-byte little-endian length, validate it against the block, and return the
uncompressed bytes. -/
def decompress_size_prepended : List Nat → Option (List Nat)
  | b0 :: b1 :: b2 :: b3 :: b4 :: b5 :: b6 :: b7 :: body =>
      if body.length = b0 + 256 * b1 + 65536 * b2 + 16777216 * b3 + 4294967296 * b4 +
          1099511627776 * b5 + 281474976710656 * b6 + 72057594037927936 * b7
      then some body else Option.none
  | _ => Option.none

/-- The encode pipeline of `Client::save` (lib.rs lines 224-225):
`bincode::serialize` then `compress_prepend_size`. -/
def saveBytes (db : Database) : List Nat :=
  compress_prepend_size (encDatabase db)

/-- The decode pipeline of `Client::open` (lib.rs lines 154-155):
`decompress_size_prepended` then `bincode::deserialize`. -/
def openDecode (bs : List Nat) : Option Database :=
  match decompress_size_prepended bs with
  | some uncompressed =>
      match decDatabase uncompressed with
      | some (db, _) => some db
      | Option.none => Option.none
  | Option.none => Option.none

/-!
Supporting lemmas: association-list maps.
-/

theorem alookup_alinsert_self {K V : Type} [DecidableEq K] (l : List (K × V)) (k : K) (v : V) :
    alookup (alinsert l k v) k = some v := by
  induction l with
  | nil => simp [alinsert, alookup]
  | cons p rest ih =>
      by_cases h : p.1 = k
      · simp [alinsert, h, alookup]
      · simp [alinsert, h, alookup, ih]

theorem alookup_alinsert_ne {K V : Type} [DecidableEq K] (l : List (K × V)) (k k' : K) (v : V)
    (h : k' ≠ k) : alookup (alinsert l k v) k' = alookup l k' := by
  induction l with
  | nil => simp [alinsert, alookup, Ne.symm h]
  | cons p rest ih =>
      by_cases hp : p.1 = k
      · have hpk : p.1 ≠ k' := by rw [hp]; exact Ne.symm h
        simp [alinsert, hp, alookup, Ne.symm h, hpk]
      · simp [alinsert, hp, alookup, ih]

theorem alookup_aremove_self {K V : Type} [DecidableEq K] (l : List (K × V)) (k : K) :
    alookup (aremove l k) k = Option.none := by
  induction l with
  | nil => simp [aremove, alookup]
  | cons p rest ih =>
      by_cases h : p.1 = k
      · simpa [aremove, h] using ih
      · simpa [aremove, alookup, h] using ih

theorem alookup_aremove_ne {K V : Type} [DecidableEq K] (l : List (K × V)) (k k' : K)
    (h : k' ≠ k) : alookup (aremove l k) k' = alookup l k' := by
  induction l with
  | nil => simp [aremove, alookup]
  | cons p rest ih =>
      by_cases hp : p.1 = k
      · have hpk : p.1 ≠ k' := by rw [hp]; exact Ne.symm h
        simp [aremove, hp, alookup, hpk, ih, Ne.symm h]
      · by_cases hk : p.1 = k'
        · simp [aremove, hp, alookup, hk, h]
        · simp [aremove, hp, alookup, hk, ih, h]

theorem alookup_mem {K V : Type} [DecidableEq K] {l : List (K × V)} {k : K} {v : V}
    (h : alookup l k = some v) : (k, v) ∈ l := by
  induction l with
  | nil => simp [alookup] at h
  | cons p rest ih =>
      obtain ⟨k₀, v₀⟩ := p
      by_cases hp : k₀ = k
      · simp only [alookup, if_pos hp, Option.some.injEq] at h
        subst hp; subst h
        exact List.mem_cons_self _ _
      · simp only [alookup, if_neg hp] at h
        exact List.mem_cons_of_mem _ (ih h)

theorem alookup_eq_of_mem_nodup {K V : Type} [DecidableEq K] {l : List (K × V)} {k : K} {v : V}
    (hnd : (l.map Prod.fst).Nodup) (h : (k, v) ∈ l) : alookup l k = some v := by
  induction l with
  | nil => simp at h
  | cons p rest ih =>
      simp only [List.map_cons, List.nodup_cons] at hnd
      rcases List.mem_cons.mp h with h1 | h2
      · simp [← h1, alookup]
      · have hne : p.1 ≠ k := by
          intro hc
          exact hnd.1 (hc ▸ (List.mem_map.mpr ⟨(k, v), h2, rfl⟩))
        simp [alookup, hne, ih hnd.2 h2]

theorem mem_alinsert {K V : Type} [DecidableEq K] {l : List (K × V)} {k : K} {v : V}
    {p : K × V} (h : p ∈ alinsert l k v) : p = (k, v) ∨ p ∈ l := by
  induction l with
  | nil => simpa [alinsert] using h
  | cons q rest ih =>
      by_cases hq : q.1 = k
      · simp only [alinsert, hq, if_pos] at h
        rcases List.mem_cons.mp h with h1 | h2
        · exact Or.inl h1
        · exact Or.inr (List.mem_cons_of_mem _ h2)
      · simp only [alinsert, hq, if_neg, not_false_iff] at h
        rcases List.mem_cons.mp h with h1 | h2
        · exact Or.inr (h1 ▸ List.mem_cons_self _ _)
        · rcases ih h2 with h3 | h4
          · exact Or.inl h3
          · exact Or.inr (List.mem_cons_of_mem _ h4)

/-!
Supporting lemmas: the validators.
-/

theorem validate_field_types_loop_error_eq (t : Table) (l : List (String × Field))
    (err : DatabaseError) (h : t.validate_field_types_loop l = .error err) :
    err = DatabaseError.MismatchedFieldType := by
  induction l with
  | nil => simp [Table.validate_field_types_loop] at h
  | cons p rest ih =>
      obtain ⟨k, v⟩ := p
      simp only [Table.validate_field_types_loop] at h
      split at h
      · split at h
        · simp only [Except.error.injEq] at h
          exact h.symm
        · exact ih h
      · exact ih h

theorem validate_field_types_error_eq (t : Table) (e : Entry) (err : DatabaseError)
    (h : t.validate_field_types e = .error err) : err = DatabaseError.MismatchedFieldType := by
  unfold Table.validate_field_types at h
  split at h
  · simp only [Except.error.injEq] at h
    exact h.symm
  · exact validate_field_types_loop_error_eq t e.fields err h

theorem validate_required_loop_error_eq (t : Table) (l : List (String × Field))
    (rem : List String) (err : DatabaseError) (h : t.validate_required_loop l rem = .error err) :
    ∃ k, err = DatabaseError.UnsupportedField k := by
  induction l generalizing rem with
  | nil => simp [Table.validate_required_loop] at h
  | cons p rest ih =>
      obtain ⟨k, v⟩ := p
      simp only [Table.validate_required_loop] at h
      split at h
      · split at h
        · exact ih _ h
        · simp only [Except.error.injEq] at h
          exact ⟨k, h.symm⟩
      · simp only [Except.error.injEq] at h
        exact ⟨k, h.symm⟩

theorem required_remaining_loop_error_eq (t : Table) (rem : List String)
    (err : DatabaseError) (h : t.required_remaining_loop rem = .error err) :
    ∃ k, err = DatabaseError.MissingRequiredField k := by
  induction rem with
  | nil => simp [Table.required_remaining_loop] at h
  | cons f rest ih =>
      simp only [Table.required_remaining_loop] at h
      split at h
      · simp only [Except.error.injEq] at h
        rename_i heq
        exact ⟨f, h.symm⟩
      · exact ih h
      · exact ih h

theorem validate_required_fields_error_eq (t : Table) (e : Entry) (err : DatabaseError)
    (h : t.validate_required_fields e = .error err) :
    (∃ k, err = DatabaseError.UnsupportedField k) ∨
    (∃ k, err = DatabaseError.MissingRequiredField k) := by
  unfold Table.validate_required_fields at h
  cases h1 : t.validate_required_loop e.fields (t.fields.map Prod.fst) with
  | error e1 =>
      rw [h1] at h
      simp only [bind, Except.bind] at h
      simp only [Except.error.injEq] at h
      subst h
      exact Or.inl (validate_required_loop_error_eq t _ _ _ h1)
  | ok rem =>
      rw [h1] at h
      simp only [bind, Except.bind] at h
      exact Or.inr (required_remaining_loop_error_eq t rem err h)

theorem validate_field_types_loop_err_of_mismatch (t : Table) (l : List (String × Field))
    (p : String × Field) (hp : p ∈ l) (req : FieldRequirement)
    (hreq : alookup t.fields p.1 = some req) (hne : req.unwrap ≠ p.2.get_type) :
    t.validate_field_types_loop l = .error DatabaseError.MismatchedFieldType := by
  induction l with
  | nil => simp at hp
  | cons q rest ih =>
      obtain ⟨k, v⟩ := q
      simp only [Table.validate_field_types_loop]
      rcases List.mem_cons.mp hp with h1 | h2
      · rw [show k = p.1 from congrArg Prod.fst h1.symm,
          show v = p.2 from congrArg Prod.snd h1.symm, hreq]
        simp only [if_pos hne]
      · split
        · split
          · rfl
          · exact ih h2
        · exact ih h2

/-- The timestamp stamping step `entry.last_timestamp = Some(SystemTime::now())`
shared by `Table::insert` and `Table::update`. -/
def stamped (e : Entry) (now : Nat) : Entry :=
  { e with last_timestamp := some now }

theorem insert_eq_of_valid (t : Table) (e : Entry) (now : Nat)
    (hv : t.validate_field_types e = .ok ()) (hr : t.validate_required_fields e = .ok ()) :
    t.insert e now =
      match t.get e.primary_field with
      | .ok _ => .error DatabaseError.EntryExists
      | .error _ => .ok { t with entries := alinsert t.entries e.primary_field (stamped e now) } := by
  simp [Table.insert, hv, hr, bind, Except.bind, stamped]

theorem update_eq_of_valid (t : Table) (e : Entry) (now : Nat)
    (hv : t.validate_field_types e = .ok ()) (hr : t.validate_required_fields e = .ok ()) :
    t.update e now =
      .ok { t with entries := alinsert t.entries e.primary_field (stamped e now) } := by
  simp [Table.update, hv, hr, bind, Except.bind, stamped]

/-!
Witness fixtures: a small table following the shape used throughout the
repository's tests (string primary key, required I64 field, optional string
field), with matching and violating entries.
-/

def exSchema : List (String × FieldRequirement) :=
  [("FirstKey", FieldRequirement.required FieldType.i64),
   ("OptionalKey", FieldRequirement.optional FieldType.string)]

def exTable : Table :=
  ⟨"MyTable", FieldType.string, exSchema, [], Option.none⟩

def exEntry : Entry :=
  ⟨Field.string "a", [("FirstKey", Field.i64 1)], Option.none⟩

def exStored : Entry :=
  ⟨Field.string "a", [("FirstKey", Field.i64 9)], some 1⟩

def exTable1 : Table :=
  { exTable with entries := [(Field.string "a", exStored)] }

/-- C2: for a schema-conformant entry whose primary key is not stored,
`Table::insert` succeeds and a subsequent `Table::get` on that key returns
an entry with the same `primary_field` and `fields` and with
`last_timestamp = Some t` for a `t` no earlier than the insert start time. -/
theorem insert_then_get (t : Table) (e : Entry) (now : Nat)
    (hv : t.validate_field_types e = .ok ())
    (hr : t.validate_required_fields e = .ok ())
    (habs : alookup t.entries e.primary_field = Option.none) :
    ∃ t', t.insert e now = .ok t' ∧
      ∃ e', t'.get e.primary_field = .ok e' ∧
        e'.primary_field = e.primary_field ∧ e'.fields = e.fields ∧
        ∃ ts, e'.last_timestamp = some ts ∧ now ≤ ts := by
  rw [insert_eq_of_valid t e now hv hr]
  simp only [Table.get, habs]
  refine ⟨_, rfl, stamped e now, ?_, rfl, rfl, now, rfl, le_refl now⟩
  simp [Table.get, alookup_alinsert_self]

theorem insert_then_get_witness :
    ∃ t', Table.insert exTable exEntry 3 = .ok t' ∧
      ∃ e', t'.get exEntry.primary_field = .ok e' ∧
        e'.primary_field = exEntry.primary_field ∧ e'.fields = exEntry.fields ∧
        ∃ ts, e'.last_timestamp = some ts ∧ 3 ≤ ts :=
  insert_then_get exTable exEntry 3 rfl rfl rfl

/-- C3: `Table::update` validates like insert and then stores the entry
whether or not one with the same primary key exists: it never fails with
`EntryDoesNotExists`, after a successful update `get` returns the newly
written fields, and `Table::insert_or_update` is the same function as
`Table::update` (same result on every table state and entry). -/
theorem update_is_upsert (t : Table) (e : Entry) (now : Nat) :
    t.insert_or_update e now = t.update e now ∧
    t.update e now ≠ .error DatabaseError.EntryDoesNotExists ∧
    (t.validate_field_types e = .ok () → t.validate_required_fields e = .ok () →
      t.update e now = .ok { t with entries := alinsert t.entries e.primary_field (stamped e now) } ∧
      ∀ t', t.update e now = .ok t' → t'.get e.primary_field = .ok (stamped e now)) := by
  refine ⟨rfl, ?_, fun hv hr => ⟨update_eq_of_valid t e now hv hr, fun t' ht' => ?_⟩⟩
  · intro hbad
    cases hv : t.validate_field_types e with
    | error err =>
        have : t.update e now = .error err := by
          simp [Table.update, hv, bind, Except.bind]
        rw [this] at hbad
        have := validate_field_types_error_eq t e err hv
        simp_all
    | ok u =>
        cases u
        cases hr : t.validate_required_fields e with
        | error err =>
            have : t.update e now = .error err := by
              simp [Table.update, hv, hr, bind, Except.bind]
            rw [this] at hbad
            rcases validate_required_fields_error_eq t e err hr with ⟨k, hk⟩ | ⟨k, hk⟩ <;> simp_all
        | ok u =>
            cases u
            rw [update_eq_of_valid t e now hv hr] at hbad
            exact Except.noConfusion hbad
  · rw [update_eq_of_valid t e now hv hr] at ht'
    cases ht'
    simp [Table.get, alookup_alinsert_self]

theorem update_is_upsert_witness :
    Table.update exTable1 exEntry 3 =
      .ok { exTable1 with entries := alinsert exTable1.entries exEntry.primary_field (stamped exEntry 3) } ∧
    ∀ t', Table.update exTable1 exEntry 3 = .ok t' →
      t'.get exEntry.primary_field = .ok (stamped exEntry 3) :=
  (update_is_upsert exTable1 exEntry 3).2.2 rfl rfl

/-- C4: for a schema-conformant entry whose primary key is already stored,
`Table::insert` returns `EntryExists`; since the operation produces no new
table state, the stored records are unchanged and `get` still returns the
previously stored entry. -/
theorem insert_existing (t : Table) (e : Entry) (now : Nat) (e₀ : Entry)
    (hv : t.validate_field_types e = .ok ())
    (hr : t.validate_required_fields e = .ok ())
    (hstored : alookup t.entries e.primary_field = some e₀) :
    t.insert e now = .error DatabaseError.EntryExists ∧
    t.get e.primary_field = .ok e₀ := by
  rw [insert_eq_of_valid t e now hv hr]
  simp [Table.get, hstored]

theorem insert_existing_witness :
    Table.insert exTable1 exEntry 3 = .error DatabaseError.EntryExists ∧
    Table.get exTable1 exEntry.primary_field = .ok exStored :=
  insert_existing exTable1 exEntry 3 exStored rfl rfl rfl

/-- A type-rule violation: the primary-key variant differs from the schema's
declared primary type, or some field present in the entry is declared in the
schema with a different type. -/
def typeRuleViolation (t : Table) (e : Entry) : Prop :=
  t.primary_field ≠ e.primary_field.get_type ∨
  ∃ p ∈ e.fields, ∃ req, alookup t.fields p.1 = some req ∧ req.unwrap ≠ p.2.get_type

/-- A presence-rule violation: the entry carries a field name absent from the
schema, or a schema field marked required is absent from the entry. -/
def presenceRuleViolation (t : Table) (e : Entry) : Prop :=
  (∃ p ∈ e.fields, alookup t.fields p.1 = Option.none) ∨
  (∃ p ∈ t.fields, (∃ ft, p.2 = FieldRequirement.required ft) ∧
    alookup e.fields p.1 = Option.none)

theorem validate_field_types_err_of_violation (t : Table) (e : Entry)
    (h : typeRuleViolation t e) :
    t.validate_field_types e = .error DatabaseError.MismatchedFieldType := by
  unfold Table.validate_field_types
  by_cases hp : t.primary_field ≠ e.primary_field.get_type
  · rw [if_pos hp]
  · rw [if_neg hp]
    rcases h with h1 | ⟨p, hpmem, req, hreq, hne⟩
    · exact absurd h1 hp
    · exact validate_field_types_loop_err_of_mismatch t e.fields p hpmem req hreq hne

/-- C7: validation error precedence in `Table::insert` and `Table::update`:
an entry violating both a type rule and a presence rule yields
`MismatchedFieldType`, not `UnsupportedField`/`MissingRequiredField`; and a
primary-key variant mismatch yields `MismatchedFieldType` regardless of the
other fields. -/
theorem validation_error_precedence (t : Table) (e : Entry) (now : Nat) :
    (typeRuleViolation t e → presenceRuleViolation t e →
      t.insert e now = .error DatabaseError.MismatchedFieldType ∧
      t.update e now = .error DatabaseError.MismatchedFieldType) ∧
    (t.primary_field ≠ e.primary_field.get_type →
      t.insert e now = .error DatabaseError.MismatchedFieldType ∧
      t.update e now = .error DatabaseError.MismatchedFieldType) := by
  have key : t.validate_field_types e = .error DatabaseError.MismatchedFieldType →
      t.insert e now = .error DatabaseError.MismatchedFieldType ∧
      t.update e now = .error DatabaseError.MismatchedFieldType := by
    intro h
    constructor
    · simp [Table.insert, h, bind, Except.bind]
    · simp [Table.update, h, bind, Except.bind]
  constructor
  · intro htype _
    exact key (validate_field_types_err_of_violation t e htype)
  · intro hp
    exact key (validate_field_types_err_of_violation t e (Or.inl hp))

def exBad : Entry :=
  ⟨Field.string "b", [("FirstKey", Field.string "x"), ("Extra", Field.i64 2)], Option.none⟩

theorem validation_error_precedence_witness :
    Table.insert exTable exBad 3 = .error DatabaseError.MismatchedFieldType ∧
    Table.update exTable exBad 3 = .error DatabaseError.MismatchedFieldType :=
  (validation_error_precedence exTable exBad 3).1
    (Or.inr ⟨("FirstKey", Field.string "x"), by decide,
      FieldRequirement.required FieldType.i64, by decide, by decide⟩)
    (Or.inl ⟨("Extra", Field.i64 2), by decide, by decide⟩)

/-- C8: the registry operation `Database::create_table` always succeeds and
unconditionally overwrites any table registered under the same name, while
`Client::create_table` pre-checks and fails with `TableExists` when the name
is registered (returning the error without producing a new registry state),
and otherwise delegates to the registry operation. -/
theorem create_table_registry_vs_client (db : Database) (tb : Table) :
    (∃ db', Database.create_table db tb = .ok db' ∧
      alookup db'.tables tb.name = some tb ∧
      ∀ n, n ≠ tb.name → alookup db'.tables n = alookup db.tables n) ∧
    (∀ t₀, alookup db.tables tb.name = some t₀ →
      Client.create_table db tb = .error (DatabaseError.TableExists tb.name)) ∧
    (alookup db.tables tb.name = Option.none →
      ∃ db', Client.create_table db tb = .ok db' ∧
        alookup db'.tables tb.name = some tb) := by
  refine ⟨⟨_, rfl, alookup_alinsert_self _ _ _, fun n hn => alookup_alinsert_ne _ _ _ _ hn⟩,
    ?_, ?_⟩
  · intro t₀ h
    simp [Client.create_table, Database.get_table, h]
  · intro h
    have hcl : Client.create_table db tb =
        .ok { db with tables := alinsert db.tables tb.name tb } := by
      simp [Client.create_table, Database.get_table, h, Database.create_table]
    exact ⟨_, hcl, alookup_alinsert_self _ _ _⟩

def exDb0 : Database := ⟨Option.none, []⟩

def exDb1 : Database := ⟨Option.none, [("MyTable", exTable)]⟩

theorem create_table_registry_vs_client_witness :
    Client.create_table exDb1 exTable = .error (DatabaseError.TableExists exTable.name) ∧
    ∃ db', Client.create_table exDb0 exTable = .ok db' ∧
      alookup db'.tables exTable.name = some exTable :=
  ⟨(create_table_registry_vs_client exDb1 exTable).2.1 exTable (by decide),
   (create_table_registry_vs_client exDb0 exTable).2.2 (by decide)⟩

theorem alookup_none_of_keys_typed {l : List (Field × Entry)} {ft : FieldType} {key : Field}
    (hinv : ∀ p ∈ l, p.1.get_type = ft) (hmis : key.get_type ≠ ft) :
    alookup l key = Option.none := by
  induction l with
  | nil => rfl
  | cons p rest ih =>
      have hne : p.1 ≠ key := by
        intro hc
        have := hinv p (List.mem_cons_self _ _)
        rw [hc] at this
        exact hmis this
      simp [alookup, hne, ih fun q hq => hinv q (List.mem_cons_of_mem _ hq)]

/-- C10: `Table::get` and `Table::delete` perform no schema type check on the
supplied key: on a table whose stored keys carry the schema's primary-key
type (the invariant every table reachable through the write API maintains),
a key of any other variant yields `EntryDoesNotExists`, never
`MismatchedFieldType`. -/
theorem get_delete_no_type_check (t : Table) (key : Field)
    (hinv : ∀ p ∈ t.entries, p.1.get_type = t.primary_field)
    (hmis : key.get_type ≠ t.primary_field) :
    t.get key = .error DatabaseError.EntryDoesNotExists ∧
    t.delete key = .error DatabaseError.EntryDoesNotExists := by
  have h := alookup_none_of_keys_typed hinv hmis
  constructor
  · simp [Table.get, h]
  · simp [Table.delete, h]

theorem get_delete_no_type_check_witness :
    Table.get exTable1 (Field.i64 7) = .error DatabaseError.EntryDoesNotExists ∧
    Table.delete exTable1 (Field.i64 7) = .error DatabaseError.EntryDoesNotExists :=
  get_delete_no_type_check exTable1 (Field.i64 7) (by decide) (by decide)

theorem validate_field_types_ok_primary (t : Table) (e : Entry)
    (h : t.validate_field_types e = .ok ()) :
    t.primary_field = e.primary_field.get_type := by
  unfold Table.validate_field_types at h
  by_cases hp : t.primary_field ≠ e.primary_field.get_type
  · rw [if_pos hp] at h
    exact Except.noConfusion h
  · exact not_ne_iff.mp hp

theorem insert_ok_valid (t : Table) (e : Entry) (now : Nat) (t' : Table)
    (h : t.insert e now = .ok t') :
    t.validate_field_types e = .ok () ∧ t.validate_required_fields e = .ok () := by
  cases hv : t.validate_field_types e with
  | error err => simp [Table.insert, hv, bind, Except.bind] at h
  | ok u =>
      cases u
      cases hr : t.validate_required_fields e with
      | error err => simp [Table.insert, hv, hr, bind, Except.bind] at h
      | ok u => cases u; exact ⟨rfl, rfl⟩

/-- The write API maintains the invariant that stored keys carry the
schema's primary-key type: `Table::insert` preserves it. -/
theorem insert_preserves_key_types (t : Table) (e : Entry) (now : Nat) (t' : Table)
    (h : t.insert e now = .ok t')
    (hinv : ∀ p ∈ t.entries, p.1.get_type = t.primary_field) :
    ∀ p ∈ t'.entries, p.1.get_type = t'.primary_field := by
  obtain ⟨hv, hr⟩ := insert_ok_valid t e now t' h
  rw [insert_eq_of_valid t e now hv hr] at h
  cases hg : t.get e.primary_field with
  | ok e₀ => rw [hg] at h; exact Except.noConfusion h
  | error err =>
      rw [hg] at h
      cases h
      intro p hp
      rcases mem_alinsert hp with h1 | h2
      · rw [h1]
        exact (validate_field_types_ok_primary t e hv).symm
      · exact hinv p h2

/-- C9 counterexample: in the trace where the stop signal is sent during the
first sleep, the events after the final wake are `prune`, `save`, `check` —
the worker runs a full prune and save after the wake at which the signal is,
per the claim, supposed to be observed.  In the source the `try_recv` check
sits at the top of the loop, before `sleep`, not after it. -/
theorem worker_check_after_wake_cex : ¬ noWorkAfterLastWake 0 := by
  unfold noWorkAfterLastWake
  decide

theorem takeWhile_append_of_exists {α : Type} (p : α → Bool) (l₁ l₂ : List α)
    (h : ∃ a ∈ l₁, p a = false) : (l₁ ++ l₂).takeWhile p = l₁.takeWhile p := by
  induction l₁ with
  | nil =>
      obtain ⟨a, ha, _⟩ := h
      exact absurd ha (List.not_mem_nil a)
  | cons a rest ih =>
      by_cases hp : p a
      · simp only [List.cons_append, List.takeWhile_cons, hp]
        rcases h with ⟨b, hb, hbf⟩
        rcases List.mem_cons.mp hb with rfl | hbr
        · rw [hp] at hbf
          exact Bool.noConfusion hbf
        · rw [ih ⟨b, hbr, hbf⟩]
      · simp [List.cons_append, List.takeWhile_cons, hp]

theorem sleepEv_mem_workerEvents (s : Nat) : WorkerEvent.sleepEv ∈ workerEvents s := by
  induction s with
  | zero => decide
  | succ s ih =>
      simp only [workerEvents]
      exact List.mem_append.mpr (Or.inr ih)

theorem afterLastSleep_append (l₁ l₂ : List WorkerEvent)
    (h : WorkerEvent.sleepEv ∈ l₂) :
    afterLastSleep (l₁ ++ l₂) = afterLastSleep l₂ := by
  unfold afterLastSleep
  rw [List.reverse_append, takeWhile_append_of_exists]
  exact ⟨WorkerEvent.sleepEv, List.mem_reverse.mpr h, by decide⟩

/-- C9 amended: every iteration of the maintenance loop checks the stop
channel at its top, before that cycle's sleep; whichever sleep the signal is
sent during, the worker still performs exactly that cycle's prune and save
after waking, then observes the signal at the next check and exits — so the
events after the final wake are always `prune`, `save`, `check`, one extra
prune/save pair after the signal but none after the observing check. -/
theorem worker_one_more_cycle (s : Nat) :
    workerEvents s =
      (List.replicate (s + 1)
        [WorkerEvent.check, WorkerEvent.sleepEv, WorkerEvent.prune, WorkerEvent.save]).flatten ++
      [WorkerEvent.check] ∧
    afterLastSleep (workerEvents s) =
      [WorkerEvent.prune, WorkerEvent.save, WorkerEvent.check] := by
  induction s with
  | zero => exact ⟨rfl, by decide⟩
  | succ s ih =>
      constructor
      · rw [workerEvents, ih.1]
        simp [List.replicate_succ, List.flatten_cons, List.append_assoc]
      · rw [workerEvents, afterLastSleep_append _ _ (sleepEv_mem_workerEvents s)]
        exact ih.2

/-!
Supporting lemmas for `Client::prune`, `Client::query` and
`Client::delete_many`: the `HashMap`-backed `Table` invariant (distinct keys,
each entry stored under its own primary key), and the effect of a sequence of
`Table::delete` calls as a key filter.
-/

/-- The invariant every `HashMap`-backed table satisfies: keys are distinct
and each entry is stored under its own primary key. -/
def tableWF (t : Table) : Prop :=
  (t.entries.map Prod.fst).Nodup ∧ ∀ p ∈ t.entries, p.1 = p.2.primary_field

/-- Drop every binding whose key is listed. -/
def dropKeys (l : List (Field × Entry)) (ks : List Field) : List (Field × Entry) :=
  l.filter (fun p => decide (p.1 ∉ ks))

theorem dropKeys_nil (l : List (Field × Entry)) : dropKeys l [] = l := by
  simp [dropKeys]

theorem dropKeys_aremove (l : List (Field × Entry)) (k : Field) (ks : List Field) :
    dropKeys (aremove l k) ks = dropKeys l (k :: ks) := by
  induction l with
  | nil => rfl
  | cons p rest ih =>
      by_cases hp : p.1 = k
      · have hmem : p.1 ∈ k :: ks := by rw [hp]; exact List.mem_cons_self _ _
        have h1 : aremove (p :: rest) k = aremove rest k := by simp [aremove, hp]
        have h2 : dropKeys (p :: rest) (k :: ks) = dropKeys rest (k :: ks) := by
          simp only [dropKeys]
          exact List.filter_cons_of_neg (by simp [hmem])
        rw [h1, h2, ih]
      · have h1 : aremove (p :: rest) k = p :: aremove rest k := by simp [aremove, hp]
        rw [h1]
        by_cases hks : p.1 ∈ ks
        · have h2 : dropKeys (p :: aremove rest k) ks = dropKeys (aremove rest k) ks := by
            simp only [dropKeys]
            exact List.filter_cons_of_neg (by simp [hks])
          have h3 : dropKeys (p :: rest) (k :: ks) = dropKeys rest (k :: ks) := by
            simp only [dropKeys]
            exact List.filter_cons_of_neg (by simp [List.mem_cons_of_mem _ hks])
          rw [h2, h3, ih]
        · have hnn : p.1 ∉ k :: ks := by simp [List.mem_cons, hp, hks]
          have h2 : dropKeys (p :: aremove rest k) ks = p :: dropKeys (aremove rest k) ks := by
            simp only [dropKeys]
            exact List.filter_cons_of_pos (by simp [hks])
          have h3 : dropKeys (p :: rest) (k :: ks) = p :: dropKeys rest (k :: ks) := by
            simp only [dropKeys]
            exact List.filter_cons_of_pos (by simp [hnn])
          rw [h2, h3, ih]

theorem alookup_dropKeys (l : List (Field × Entry)) (ks : List Field) (k : Field) :
    alookup (dropKeys l ks) k = if k ∈ ks then Option.none else alookup l k := by
  induction l with
  | nil => simp [dropKeys, alookup]
  | cons p rest ih =>
      by_cases hmem : p.1 ∈ ks
      · rw [show dropKeys (p :: rest) ks = dropKeys rest ks by
          simp [dropKeys, List.filter_cons, hmem]]
        rw [ih]
        by_cases hk : k ∈ ks
        · simp [hk]
        · have hpk : p.1 ≠ k := fun hc => hk (hc ▸ hmem)
          simp [hk, alookup, hpk]
      · rw [show dropKeys (p :: rest) ks = p :: dropKeys rest ks by
          simp [dropKeys, List.filter_cons, hmem]]
        by_cases hpk : p.1 = k
        · subst hpk
          simp [alookup, hmem]
        · simp [alookup, hpk, ih]

theorem scan_lookup_of_wf (t : Table) (hwf : tableWF t) :
    ∀ e ∈ t.scan, alookup t.entries e.primary_field = some e := by
  intro e he
  simp only [Table.scan] at he
  obtain ⟨p, hp, hpe⟩ := List.mem_map.mp he
  have hk := hwf.2 p hp
  have hmem : (e.primary_field, e) ∈ t.entries := by
    have h1 : p.1 = e.primary_field := by rw [hk, hpe]
    have h2 : p = (e.primary_field, e) := Prod.ext h1 hpe
    rw [← h2]
    exact hp
  exact alookup_eq_of_mem_nodup hwf.1 hmem

theorem scan_keys_nodup_of_wf (t : Table) (hwf : tableWF t) :
    (t.scan.map Entry.primary_field).Nodup := by
  have heq : t.scan.map Entry.primary_field = t.entries.map Prod.fst := by
    simp only [Table.scan, List.map_map]
    exact List.map_congr_left fun p hp => (hwf.2 p hp).symm
  rw [heq]
  exact hwf.1

/-- The staleness test of `Client::prune` for one record at one time
snapshot: `duration_since` succeeds (`ts ≤ now`) and the elapsed time
exceeds `expire_after`. -/
def staleAt (now d : Nat) (e : Entry) : Bool :=
  match e.last_timestamp with
  | some ts => decide (ts ≤ now) && decide (now - ts > d)
  | Option.none => false

/-- Primary keys of the scanned items one prune pass deletes. -/
def staleKeys (now d : Nat) (items : List Entry) : List Field :=
  (items.filter (staleAt now d)).map Entry.primary_field

theorem pruneItems_eq (now d : Nat) : ∀ (items : List Entry) (t : Table),
    (items.map Entry.primary_field).Nodup →
    (∀ e ∈ items, alookup t.entries e.primary_field = some e) →
    pruneItems now d t items =
      .ok { t with entries := dropKeys t.entries (staleKeys now d items) } := by
  intro items
  induction items with
  | nil =>
      intro t _ _
      simp [pruneItems, staleKeys, dropKeys_nil]
  | cons i rest ih =>
      intro t hnd hst
      have hlook := hst i (List.mem_cons_self _ _)
      have hnd' : (rest.map Entry.primary_field).Nodup := by
        simp only [List.map_cons, List.nodup_cons] at hnd
        exact hnd.2
      have hnotin : i.primary_field ∉ rest.map Entry.primary_field := by
        simp only [List.map_cons, List.nodup_cons] at hnd
        exact hnd.1
      have hst' : ∀ e ∈ rest,
          alookup (aremove t.entries i.primary_field) e.primary_field = some e := by
        intro e he
        rw [alookup_aremove_ne]
        · exact hst e (List.mem_cons_of_mem _ he)
        · intro hc
          exact hnotin (hc ▸ List.mem_map.mpr ⟨e, he, rfl⟩)
      have hstrest : ∀ e ∈ rest, alookup t.entries e.primary_field = some e :=
        fun e he => hst e (List.mem_cons_of_mem _ he)
      cases hts : i.last_timestamp with
      | none =>
          have hstale : staleAt now d i = false := by simp [staleAt, hts]
          have hsk : staleKeys now d (i :: rest) = staleKeys now d rest := by
            simp [staleKeys, List.filter_cons, hstale]
          simp only [pruneItems, hts]
          rw [ih t hnd' hstrest, hsk]
      | some ts =>
          by_cases h1 : ts ≤ now
          · by_cases h2 : now - ts > d
            · have hstale : staleAt now d i = true := by simp [staleAt, hts, h1, h2]
              have hdel : t.delete i.primary_field =
                  .ok { t with entries := aremove t.entries i.primary_field } := by
                simp [Table.delete, hlook]
              have hsk : staleKeys now d (i :: rest) =
                  i.primary_field :: staleKeys now d rest := by
                simp [staleKeys, List.filter_cons, hstale]
              simp only [pruneItems, hts, if_pos h1, if_pos h2, hdel, bind, Except.bind]
              rw [ih { t with entries := aremove t.entries i.primary_field } hnd' hst']
              rw [hsk]
              simp [dropKeys_aremove]
            · have hstale : staleAt now d i = false := by simp [staleAt, hts, h2]
              have hsk : staleKeys now d (i :: rest) = staleKeys now d rest := by
                simp [staleKeys, List.filter_cons, hstale]
              simp only [pruneItems, hts, if_pos h1, if_neg h2]
              rw [ih t hnd' hstrest, hsk]
          · have hstale : staleAt now d i = false := by simp [staleAt, hts, h1]
            have hsk : staleKeys now d (i :: rest) = staleKeys now d rest := by
              simp [staleKeys, List.filter_cons, hstale]
            simp only [pruneItems, hts, if_neg h1]
            rw [ih t hnd' hstrest, hsk]

theorem mem_staleKeys_iff (now d : Nat) (t : Table) (hwf : tableWF t) (k : Field) :
    k ∈ staleKeys now d t.scan ↔
      ∃ e, alookup t.entries k = some e ∧ staleAt now d e = true := by
  constructor
  · intro h
    obtain ⟨e, hef, hek⟩ := List.mem_map.mp h
    have hmem := List.mem_filter.mp hef
    refine ⟨e, ?_, hmem.2⟩
    rw [← hek]
    exact scan_lookup_of_wf t hwf e hmem.1
  · rintro ⟨e, hlook, hstale⟩
    have hmem : (k, e) ∈ t.entries := alookup_mem hlook
    have hk : k = e.primary_field := hwf.2 (k, e) hmem
    rw [hk]
    refine List.mem_map.mpr ⟨e, List.mem_filter.mpr ⟨?_, hstale⟩, rfl⟩
    simp only [Table.scan]
    exact List.mem_map.mpr ⟨(k, e), hmem, rfl⟩

/-- What one prune pass does to one table. -/
def prunedTable (now : Nat) (t t' : Table) : Prop :=
  t'.name = t.name ∧ t'.primary_field = t.primary_field ∧ t'.fields = t.fields ∧
  t'.expire_after = t.expire_after ∧
  (t.expire_after = Option.none → t' = t) ∧
  ∀ k, alookup t'.entries k =
    match t.expire_after, alookup t.entries k with
    | some d, some e => if staleAt now d e then Option.none else some e
    | _, r => r

theorem pruneTable_spec (now : Nat) (t : Table) (hwf : tableWF t) :
    ∃ t', pruneTable now t = .ok t' ∧ prunedTable now t t' := by
  cases hea : t.expire_after with
  | none =>
      refine ⟨t, by simp [pruneTable, hea], rfl, rfl, rfl, rfl, fun _ => rfl, fun k => ?_⟩
      rw [hea]
  | some d =>
      have hpi := pruneItems_eq now d t.scan t (scan_keys_nodup_of_wf t hwf)
        (scan_lookup_of_wf t hwf)
      refine ⟨{ t with entries := dropKeys t.entries (staleKeys now d t.scan) },
        ?_, rfl, rfl, rfl, rfl, fun hc => absurd (hea ▸ hc) (by simp), fun k => ?_⟩
      · simp only [pruneTable, hea]
        rw [hea] at hpi
        exact hpi
      · rw [hea]
        show alookup (dropKeys t.entries (staleKeys now d t.scan)) k = _
        rw [alookup_dropKeys]
        cases hl : alookup t.entries k with
        | none =>
            rw [if_neg]
            intro hc
            obtain ⟨e, he, _⟩ := (mem_staleKeys_iff now d t hwf k).mp hc
            rw [hl] at he
            exact Option.noConfusion he
        | some e =>
            by_cases hstale : staleAt now d e = true
            · rw [if_pos ((mem_staleKeys_iff now d t hwf k).mpr ⟨e, hl, hstale⟩)]
              simp [hstale]
            · rw [if_neg]
              · simp [hstale, hl]
              · intro hc
                obtain ⟨e', he', hs'⟩ := (mem_staleKeys_iff now d t hwf k).mp hc
                rw [hl] at he'
                cases he'
                exact hstale hs'

theorem pruneTablesLoop_spec (now : Nat) : ∀ (names : List String) (db : Database),
    names.Nodup →
    (∀ tn ∈ names, ∀ t, alookup db.tables tn = some t → tableWF t) →
    ∃ db', pruneTablesLoop now db names = .ok db' ∧
      db'.sync_interval = db.sync_interval ∧
      (∀ tn, tn ∉ names → alookup db'.tables tn = alookup db.tables tn) ∧
      (∀ tn ∈ names, ∀ t, alookup db.tables tn = some t →
        ∃ t', alookup db'.tables tn = some t' ∧ prunedTable now t t') ∧
      (∀ tn, alookup db.tables tn = Option.none → alookup db'.tables tn = Option.none) := by
  intro names
  induction names with
  | nil =>
      intro db _ _
      exact ⟨db, rfl, rfl, fun _ _ => rfl,
        fun tn h => absurd h (List.not_mem_nil tn), fun _ h => h⟩
  | cons tn rest ih =>
      intro db hnd hwf
      have hnd' := (List.nodup_cons.mp hnd).2
      have hnotin := (List.nodup_cons.mp hnd).1
      cases hl : alookup db.tables tn with
      | none =>
          obtain ⟨db', hdb', hsync, hout, hin, hnone⟩ :=
            ih db hnd' (fun x hx u hu => hwf x (List.mem_cons_of_mem _ hx) u hu)
          refine ⟨db', by simp only [pruneTablesLoop, hl]; exact hdb', hsync, ?_, ?_, hnone⟩
          · intro x hx
            exact hout x (fun hc => hx (List.mem_cons_of_mem _ hc))
          · intro x hx u hu
            rcases List.mem_cons.mp hx with h1 | h2
            · subst h1
              rw [hl] at hu
              exact Option.noConfusion hu
            · exact hin x h2 u hu
      | some t =>
          have hwt := hwf tn (List.mem_cons_self _ _) t hl
          obtain ⟨t', hpt, hprop⟩ := pruneTable_spec now t hwt
          have hwf₁ : ∀ x ∈ rest, ∀ u,
              alookup (alinsert db.tables tn t') x = some u → tableWF u := by
            intro x hx u hu
            have hxn : x ≠ tn := by
              intro hc
              subst hc
              exact hnotin hx
            rw [alookup_alinsert_ne _ _ _ _ hxn] at hu
            exact hwf x (List.mem_cons_of_mem _ hx) u hu
          obtain ⟨db', hdb', hsync, hout, hin, hnone⟩ :=
            ih { db with tables := alinsert db.tables tn t' } hnd' hwf₁
          refine ⟨db', ?_, hsync, ?_, ?_, ?_⟩
          · simp only [pruneTablesLoop, hl, hpt, bind, Except.bind]
            exact hdb'
          · intro x hx
            have hxr : x ∉ rest := fun hc => hx (List.mem_cons_of_mem _ hc)
            have hxt : x ≠ tn := fun hc => hx (hc ▸ List.mem_cons_self _ _)
            rw [hout x hxr]
            exact alookup_alinsert_ne _ _ _ _ hxt
          · intro x hx u hu
            rcases List.mem_cons.mp hx with h1 | h2
            · subst h1
              rw [hl] at hu
              cases hu
              refine ⟨t', ?_, hprop⟩
              rw [hout x hnotin]
              exact alookup_alinsert_self _ _ _
            · have hxn : x ≠ tn := by
                intro hc
                subst hc
                exact hnotin h2
              refine hin x h2 u ?_
              rw [alookup_alinsert_ne _ _ _ _ hxn]
              exact hu
          · intro x hx
            have hxt : x ≠ tn := by
              intro hc
              rw [hc, hl] at hx
              exact Option.noConfusion hx
            refine hnone x ?_
            rw [alookup_alinsert_ne _ _ _ _ hxt]
            exact hx

/-- C5: after `Client::prune` at time `now`, a previously stored record is
absent exactly when its table had `expire_after = Some d`, the record had
`last_touched = Some ts`, and `now - ts > d` at prune time; records with no
`last_touched` are never pruned, and tables without an expiration setting
are left entirely unchanged. -/
theorem prune_spec (db : Database) (now : Nat)
    (hnd : (db.tables.map Prod.fst).Nodup)
    (hwf : ∀ p ∈ db.tables, tableWF p.2) :
    ∃ db', Client.prune db now = .ok db' ∧
      ∀ tn t, alookup db.tables tn = some t →
        ∃ t', alookup db'.tables tn = some t' ∧
          (t.expire_after = Option.none → t' = t) ∧
          ∀ k, alookup t'.entries k =
            match t.expire_after, alookup t.entries k with
            | some d, some e =>
                match e.last_timestamp with
                | some ts => if now - ts > d then Option.none else some e
                | Option.none => some e
            | _, r => r := by
  have hnd2 : db.list_tables.Nodup := by
    simpa [Database.list_tables] using hnd
  have hwf2 : ∀ tn ∈ db.list_tables, ∀ t, alookup db.tables tn = some t → tableWF t :=
    fun tn _ t ht => hwf (tn, t) (alookup_mem ht)
  obtain ⟨db', hdb', _, _, hin, _⟩ := pruneTablesLoop_spec now db.list_tables db hnd2 hwf2
  refine ⟨db', hdb', fun tn t ht => ?_⟩
  have htn : tn ∈ db.list_tables := by
    simp only [Database.list_tables]
    exact List.mem_map.mpr ⟨(tn, t), alookup_mem ht, rfl⟩
  obtain ⟨t', ht', hprop⟩ := hin tn htn t ht
  refine ⟨t', ht', hprop.2.2.2.2.1, fun k => ?_⟩
  rw [hprop.2.2.2.2.2 k]
  cases t.expire_after with
  | none => rfl
  | some d =>
      cases alookup t.entries k with
      | none => rfl
      | some e =>
          cases hts : e.last_timestamp with
          | none => simp [staleAt, hts]
          | some ts =>
              by_cases h2 : now - ts > d
              · have h1 : ts ≤ now := by omega
                simp [staleAt, hts, h1, h2]
              · simp [staleAt, hts, h2]

def exPruneOld : Entry := ⟨Field.string "old", [("FirstKey", Field.i64 1)], some 1⟩

def exPruneNew : Entry := ⟨Field.string "new", [("FirstKey", Field.i64 2)], some 90⟩

def exPruneTable : Table :=
  ⟨"P", FieldType.string, exSchema,
    [(Field.string "old", exPruneOld), (Field.string "new", exPruneNew)], some 10⟩

def exPruneDb : Database := ⟨Option.none, [("P", exPruneTable)]⟩

theorem prune_spec_witness :
    ∃ db', Client.prune exPruneDb 100 = .ok db' ∧
      ∀ tn t, alookup exPruneDb.tables tn = some t →
        ∃ t', alookup db'.tables tn = some t' ∧
          (t.expire_after = Option.none → t' = t) ∧
          ∀ k, alookup t'.entries k =
            match t.expire_after, alookup t.entries k with
            | some d, some e =>
                match e.last_timestamp with
                | some ts => if 100 - ts > d then Option.none else some e
                | Option.none => some e
            | _, r => r :=
  prune_spec exPruneDb 100 (by decide) (by
    intro p hp
    rw [List.mem_singleton.mp hp]
    exact ⟨by decide, by decide⟩)

/-!
Supporting lemmas for C6.
-/

theorem meetsCriteria_iff (e : Entry) (criteria : List (String × Field)) :
    meetsCriteria e criteria = true ↔ ∀ p ∈ criteria, alookup e.fields p.1 = some p.2 := by
  unfold meetsCriteria
  rw [List.all_eq_true]
  constructor
  · intro h p hp
    have h2 := h p hp
    cases hl : alookup e.fields p.1 with
    | none =>
        rw [hl] at h2
        exact Bool.noConfusion h2
    | some v =>
        rw [hl] at h2
        simp only [decide_eq_true_eq] at h2
        exact congrArg some h2.symm
  · intro h p hp
    rw [h p hp]
    simp

theorem mem_scan_iff (t : Table) (hwf : tableWF t) (e : Entry) :
    e ∈ t.scan ↔ alookup t.entries e.primary_field = some e := by
  constructor
  · exact scan_lookup_of_wf t hwf e
  · intro h
    simp only [Table.scan]
    exact List.mem_map.mpr ⟨(e.primary_field, e), alookup_mem h, rfl⟩

/-- Primary keys of the scanned items `Client::delete_many` removes. -/
def matchKeys (criteria : List (String × Field)) (items : List Entry) : List Field :=
  (items.filter (fun i => meetsCriteria i criteria)).map Entry.primary_field

theorem deleteManyLoop_eq (criteria : List (String × Field)) :
    ∀ (items : List Entry) (t : Table),
    (items.map Entry.primary_field).Nodup →
    (∀ e ∈ items, alookup t.entries e.primary_field = some e) →
    deleteManyLoop criteria t items =
      .ok ({ t with entries := dropKeys t.entries (matchKeys criteria items) },
        (items.filter (fun i => meetsCriteria i criteria)).length) := by
  intro items
  induction items with
  | nil =>
      intro t _ _
      simp [deleteManyLoop, matchKeys, dropKeys_nil]
  | cons i rest ih =>
      intro t hnd hst
      have hlook := hst i (List.mem_cons_self _ _)
      have hnd' : (rest.map Entry.primary_field).Nodup := by
        simp only [List.map_cons, List.nodup_cons] at hnd
        exact hnd.2
      have hnotin : i.primary_field ∉ rest.map Entry.primary_field := by
        simp only [List.map_cons, List.nodup_cons] at hnd
        exact hnd.1
      have hst' : ∀ e ∈ rest,
          alookup (aremove t.entries i.primary_field) e.primary_field = some e := by
        intro e he
        rw [alookup_aremove_ne]
        · exact hst e (List.mem_cons_of_mem _ he)
        · intro hc
          exact hnotin (hc ▸ List.mem_map.mpr ⟨e, he, rfl⟩)
      have hstrest : ∀ e ∈ rest, alookup t.entries e.primary_field = some e :=
        fun e he => hst e (List.mem_cons_of_mem _ he)
      by_cases hm : meetsCriteria i criteria = true
      · have hdel : t.delete i.primary_field =
            .ok { t with entries := aremove t.entries i.primary_field } := by
          simp [Table.delete, hlook]
        have hmk : matchKeys criteria (i :: rest) =
            i.primary_field :: matchKeys criteria rest := by
          simp [matchKeys, List.filter_cons, hm]
        have hflt : ((i :: rest).filter (fun i => meetsCriteria i criteria)).length =
            (rest.filter (fun i => meetsCriteria i criteria)).length + 1 := by
          simp [List.filter_cons, hm]
        simp only [deleteManyLoop, hm, if_true, hdel, bind, Except.bind]
        rw [ih { t with entries := aremove t.entries i.primary_field } hnd' hst']
        rw [hmk, hflt]
        simp [dropKeys_aremove]
      · have hmf : meetsCriteria i criteria = false := by
          revert hm
          cases meetsCriteria i criteria <;> simp
        have hmk : matchKeys criteria (i :: rest) = matchKeys criteria rest := by
          simp [matchKeys, List.filter_cons, hmf]
        have hflt : ((i :: rest).filter (fun i => meetsCriteria i criteria)).length =
            (rest.filter (fun i => meetsCriteria i criteria)).length := by
          simp [List.filter_cons, hmf]
        rw [show deleteManyLoop criteria t (i :: rest) = deleteManyLoop criteria t rest by
          simp [deleteManyLoop, hmf]]
        rw [ih t hnd' hstrest, hmk, hflt]

theorem mem_matchKeys_iff (criteria : List (String × Field)) (t : Table)
    (hwf : tableWF t) (k : Field) :
    k ∈ matchKeys criteria t.scan ↔
      ∃ e, alookup t.entries k = some e ∧ meetsCriteria e criteria = true := by
  constructor
  · intro h
    obtain ⟨e, hef, hek⟩ := List.mem_map.mp h
    have hmem := List.mem_filter.mp hef
    refine ⟨e, ?_, hmem.2⟩
    rw [← hek]
    exact scan_lookup_of_wf t hwf e hmem.1
  · rintro ⟨e, hlook, hm⟩
    have hmem : (k, e) ∈ t.entries := alookup_mem hlook
    have hk : k = e.primary_field := hwf.2 (k, e) hmem
    rw [hk]
    refine List.mem_map.mpr ⟨e, List.mem_filter.mpr ⟨?_, hm⟩, rfl⟩
    simp only [Table.scan]
    exact List.mem_map.mpr ⟨(k, e), hmem, rfl⟩

/-- The table `Client::delete_many` leaves behind. -/
def dmTable (criteria : List (String × Field)) (t : Table) : Table :=
  { t with entries := dropKeys t.entries (matchKeys criteria t.scan) }

/-- C6: `Client::query` returns exactly the stored records whose `fields`
map contains, for every `(k, v)` of the criteria, an entry at `k` equal to
`v` (multiple keys are a logical AND, a missing or different value excludes
the record, the empty criteria map matches every record), and
`Client::delete_many` removes exactly the records query would return and
returns their count. -/
theorem query_delete_many_spec (db : Database) (tn : String)
    (criteria : List (String × Field)) (t : Table)
    (ht : alookup db.tables tn = some t) (hwf : tableWF t) :
    (∀ e, meetsCriteria e criteria = true ↔
      ∀ p ∈ criteria, alookup e.fields p.1 = some p.2) ∧
    (∃ res, Client.query db tn criteria = .ok res ∧
      ∀ e, e ∈ res ↔ alookup t.entries e.primary_field = some e ∧
        ∀ p ∈ criteria, alookup e.fields p.1 = some p.2) ∧
    (∃ n db', Client.delete_many db tn criteria = .ok (n, db') ∧
      n = (t.scan.filter (fun i => meetsCriteria i criteria)).length ∧
      ∃ t', alookup db'.tables tn = some t' ∧
        ∀ k, alookup t'.entries k =
          match alookup t.entries k with
          | some e => if meetsCriteria e criteria then Option.none else some e
          | Option.none => Option.none) := by
  refine ⟨fun e => meetsCriteria_iff e criteria, ?_, ?_⟩
  · refine ⟨t.scan.filter (fun i => meetsCriteria i criteria),
      by simp [Client.query, Database.get_table, ht], fun e => ?_⟩
    rw [List.mem_filter, mem_scan_iff t hwf e, meetsCriteria_iff]
  · have hdl := deleteManyLoop_eq criteria t.scan t (scan_keys_nodup_of_wf t hwf)
      (scan_lookup_of_wf t hwf)
    have hmain : Client.delete_many db tn criteria =
        .ok ((t.scan.filter (fun i => meetsCriteria i criteria)).length,
          { db with tables := alinsert db.tables tn (dmTable criteria t) }) := by
      simp only [Client.delete_many, Database.get_table, ht, hdl, bind, Except.bind, dmTable]
    refine ⟨_, _, hmain, rfl, dmTable criteria t, alookup_alinsert_self _ _ _, fun k => ?_⟩
    show alookup (dropKeys t.entries (matchKeys criteria t.scan)) k = _
    rw [alookup_dropKeys]
    cases hl : alookup t.entries k with
    | none =>
        rw [if_neg]
        intro hc
        obtain ⟨e, he, _⟩ := (mem_matchKeys_iff criteria t hwf k).mp hc
        rw [hl] at he
        exact Option.noConfusion he
    | some e =>
        by_cases hm : meetsCriteria e criteria = true
        · rw [if_pos ((mem_matchKeys_iff criteria t hwf k).mpr ⟨e, hl, hm⟩)]
          simp [hm]
        · rw [if_neg]
          · simp only [hl]
            have hmf : meetsCriteria e criteria = false := by
              revert hm
              cases meetsCriteria e criteria <;> simp
            simp [hmf]
          · intro hc
            obtain ⟨e', he', hm'⟩ := (mem_matchKeys_iff criteria t hwf k).mp hc
            rw [hl] at he'
            cases he'
            exact hm hm'

def exQE1 : Entry :=
  ⟨Field.string "a", [("FirstKey", Field.i64 1), ("OptionalKey", Field.string "x")], some 1⟩

def exQE2 : Entry := ⟨Field.string "b", [("FirstKey", Field.i64 2)], some 1⟩

def exQTable : Table :=
  ⟨"Q", FieldType.string, exSchema,
    [(Field.string "a", exQE1), (Field.string "b", exQE2)], Option.none⟩

def exQDb : Database := ⟨Option.none, [("Q", exQTable)]⟩

def exCrit : List (String × Field) := [("OptionalKey", Field.string "x")]

theorem query_delete_many_spec_witness :
    (∀ e, meetsCriteria e exCrit = true ↔
      ∀ p ∈ exCrit, alookup e.fields p.1 = some p.2) ∧
    (∃ res, Client.query exQDb "Q" exCrit = .ok res ∧
      ∀ e, e ∈ res ↔ alookup exQTable.entries e.primary_field = some e ∧
        ∀ p ∈ exCrit, alookup e.fields p.1 = some p.2) ∧
    (∃ n db', Client.delete_many exQDb "Q" exCrit = .ok (n, db') ∧
      n = (exQTable.scan.filter (fun i => meetsCriteria i exCrit)).length ∧
      ∃ t', alookup db'.tables "Q" = some t' ∧
        ∀ k, alookup t'.entries k =
          match alookup exQTable.entries k with
          | some e => if meetsCriteria e exCrit then Option.none else some e
          | Option.none => Option.none) :=
  query_delete_many_spec exQDb "Q" exCrit exQTable (by decide) ⟨by decide, by decide⟩

/-!
Round-trip of the persistence codec (C1).
-/

/-- A decoder inverts an encoder on any prefix. -/
def RoundTrip {α : Type} (enc : α → List Nat) (dec : List Nat → Option (α × List Nat)) : Prop :=
  ∀ a rest, dec (enc a ++ rest) = some (a, rest)

theorem bytesToNat_natBytesF : ∀ fuel n : Nat, n ≤ fuel →
    bytesToNat (natBytesF fuel n) = n := by
  intro fuel
  induction fuel with
  | zero =>
      intro n h
      simp [Nat.le_zero.mp h, natBytesF, bytesToNat]
  | succ fuel ih =>
      intro n h
      by_cases h0 : n = 0
      · simp [h0, natBytesF, bytesToNat]
      · simp only [natBytesF, if_neg h0, bytesToNat]
        have hdiv : n / 256 ≤ fuel := by
          have h1 : n / 256 < n := Nat.div_lt_self (Nat.pos_of_ne_zero h0) (by omega)
          omega
        rw [ih (n / 256) hdiv]
        omega

theorem rt_nat : RoundTrip encNat decNat := by
  intro n rest
  simp only [encNat, decNat, List.cons_append]
  rw [if_pos (by simp)]
  rw [List.take_left, List.drop_left]
  simp only [natBytes, bytesToNat_natBytesF n n (le_refl n)]

theorem rt_int : RoundTrip encInt decInt := by
  intro i rest
  by_cases hneg : i < 0
  · have h1 : ((i.natAbs : Int)) = -i := by omega
    simp [encInt, decInt, List.cons_append, rt_nat i.natAbs rest, hneg, h1]
  · have h1 : ((i.natAbs : Int)) = i := by omega
    simp [encInt, decInt, List.cons_append, rt_nat i.natAbs rest, hneg, h1]

theorem rt_opt {α : Type} {enc : α → List Nat} {dec : List Nat → Option (α × List Nat)}
    (h : RoundTrip enc dec) : RoundTrip (encOpt enc) (decOpt dec) := by
  intro a rest
  cases a with
  | none => rfl
  | some x =>
      simp only [encOpt, decOpt, List.cons_append, h x rest]

theorem rt_decCount {α : Type} {enc : α → List Nat} {dec : List Nat → Option (α × List Nat)}
    (h : RoundTrip enc dec) : ∀ (l : List α) (rest : List Nat),
      decCount dec l.length ((l.map enc).flatten ++ rest) = some (l, rest) := by
  intro l
  induction l with
  | nil => intro rest; rfl
  | cons a l ih =>
      intro rest
      simp only [List.map_cons, List.flatten_cons, List.length_cons, List.append_assoc]
      simp only [decCount, h a ((l.map enc).flatten ++ rest), ih rest]

theorem rt_list {α : Type} {enc : α → List Nat} {dec : List Nat → Option (α × List Nat)}
    (h : RoundTrip enc dec) : RoundTrip (encList enc) (decList dec) := by
  intro l rest
  simp only [encList, decList, List.append_assoc, rt_nat l.length ((l.map enc).flatten ++ rest)]
  exact rt_decCount h l rest

theorem rt_pair {α β : Type} {encA : α → List Nat} {decA : List Nat → Option (α × List Nat)}
    {encB : β → List Nat} {decB : List Nat → Option (β × List Nat)}
    (hA : RoundTrip encA decA) (hB : RoundTrip encB decB) :
    RoundTrip (encPair encA encB) (decPair decA decB) := by
  intro p rest
  obtain ⟨a, b⟩ := p
  simp only [encPair, decPair, List.append_assoc, hA a (encB b ++ rest), hB b rest]

theorem rt_char : RoundTrip encChar decChar := by
  intro c rest
  simp only [encChar, decChar, rt_nat c.toNat rest, Char.ofNat_toNat]

theorem rt_string : RoundTrip encString decString := by
  intro s rest
  simp only [encString, decString, rt_list rt_char s.data rest]

theorem rt_fieldtype : RoundTrip encFieldType decFieldType := by
  intro ft rest
  cases ft <;> rfl

theorem rt_field : RoundTrip encField decField := by
  intro f rest
  cases f with
  | string s => simp only [encField, decField, List.cons_append, rt_string s rest]
  | i64 n => simp only [encField, decField, List.cons_append, rt_int n rest]
  | i32 n => simp only [encField, decField, List.cons_append, rt_int n rest]
  | u64 n => simp only [encField, decField, List.cons_append, rt_nat n rest]
  | u32 n => simp only [encField, decField, List.cons_append, rt_nat n rest]
  | date t => simp only [encField, decField, List.cons_append, rt_nat t rest]
  | notImplemented => rfl

theorem rt_req : RoundTrip encReq decReq := by
  intro r rest
  cases r with
  | required t => simp only [encReq, decReq, List.cons_append, rt_fieldtype t rest]
  | optional t => simp only [encReq, decReq, List.cons_append, rt_fieldtype t rest]

theorem rt_entry : RoundTrip encEntry decEntry := by
  intro e rest
  obtain ⟨pf, fs, ts⟩ := e
  simp only [encEntry, decEntry, List.append_assoc]
  simp only [rt_field pf, rt_list (rt_pair rt_string rt_field) fs, rt_opt rt_nat ts]

theorem rt_table : RoundTrip encTable decTable := by
  intro t rest
  obtain ⟨nm, pf, fs, es, ea⟩ := t
  simp only [encTable, decTable, List.append_assoc]
  simp only [rt_string nm, rt_fieldtype pf, rt_list (rt_pair rt_string rt_req) fs,
    rt_list (rt_pair rt_field rt_entry) es, rt_opt rt_nat ea]

theorem rt_database : RoundTrip encDatabase decDatabase := by
  intro db rest
  obtain ⟨si, ts⟩ := db
  simp only [encDatabase, decDatabase, List.append_assoc]
  simp only [rt_opt rt_nat si, rt_list (rt_pair rt_string rt_table) ts]

theorem decompress_compress (bs : List Nat) (h : bs.length < 18446744073709551616) :
    decompress_size_prepended (compress_prepend_size bs) = some bs := by
  simp only [compress_prepend_size, List.cons_append, List.nil_append,
    decompress_size_prepended]
  rw [if_pos (by omega)]

/-- C1: encoding a `Database` with the persistence pipeline of `Client::save`
(binary-serialize, then length-prefixed compress) and decoding the bytes as
`Client::open` does (decompress, validating the length prefix, then
deserialize) reproduces the database — table registry, per-table schemas and
records, and sync interval — exactly.  The hypothesis bounds the encoded
size by the 8-byte length prefix's capacity. -/
theorem save_open_roundtrip (db : Database)
    (h : (encDatabase db).length < 18446744073709551616) :
    openDecode (saveBytes db) = some db := by
  have hdb := rt_database db []
  rw [List.append_nil] at hdb
  simp only [saveBytes, openDecode, decompress_compress (encDatabase db) h, hdb]

set_option maxRecDepth 100000 in
theorem save_open_roundtrip_witness :
    (encDatabase exQDb).length < 18446744073709551616 ∧
    openDecode (saveBytes exQDb) = some exQDb :=
  ⟨by decide, save_open_roundtrip exQDb (by decide)⟩

end PKStore
